import Mathlib

/-! # Signal-field utilities of `inject_80211` (openwifi)

A shallow embedding of `user_space/inject_80211/signal_field_utilities.h`.

Conventions of the embedding:

* C unsigned integers are natural numbers; every place where a C type can
  truncate is written with an explicit `% 2 ^ w`.
* `int` is 32 bits wide.  An `int` left shift whose count is not below 32 or
  whose result does not fit in `int` has no defined result in C; the embedding
  reports it as `Fault.undefined_behaviour` instead of picking a platform's
  behaviour.
* `printf(...); exit(1);` is reported as `Fault.terminated 1 message`.
* A `u8 *` argument is a list of bytes; an access outside the list is
  `Fault.undefined_behaviour`.
-/

namespace SignalField

/-! ## Outcomes -/

/-- The ways a call can end without returning a value. -/
inductive Fault where
  /-- The process printed `message` and called `exit(status)`. -/
  | terminated (status : Nat) (message : String)
  /-- The call ran into an operation C leaves undefined. -/
  | undefined_behaviour
  deriving DecidableEq, Repr

/-- The text both parity routines print before `exit(1)`. -/
def ht_mode_message : String := "HT MODE is not supported yet"

/-- Left shift of a non-negative 32-bit `int` by `k` (C11 6.5.7): defined only
when `k < 32` and the mathematical result is at most `INT_MAX`. -/
def int_shl (a k : Nat) : Except Fault Nat :=
  if k < 32 ∧ a * 2 ^ k < 2 ^ 31 then .ok (a * 2 ^ k) else .error .undefined_behaviour

/-! ## Bit-order transform -/

/-- `u8 reverse_byte(u8 b)`: three masked swap stages, each stored back into
the `u8` variable. -/
def reverse_byte (b : Nat) : Nat :=
  let b := (((b &&& 0xF0) >>> 4) ||| ((b &&& 0x0F) <<< 4)) % 256
  let b := (((b &&& 0xCC) >>> 2) ||| ((b &&& 0x33) <<< 2)) % 256
  let b := (((b &&& 0xAA) >>> 1) ||| ((b &&& 0x55) <<< 1)) % 256
  b

/-- The `for (i = 0; i < size; i++)` loop of `switch_bit_order`; the first
argument is the number of iterations still to run (`size - i`).  `byte` is a
`u8`, promoted to `int` for the shift; `result` is an `unsigned long`, taken
as 64 bits wide. -/
def switch_bit_order_loop : Nat → Nat → Nat → Nat → Except Fault Nat
  | 0, _, _, result => .ok result
  | n + 1, i, field, result =>
    let byte := (field &&& 0xff) % 256
    let field := field >>> 8
    let byte := reverse_byte byte
    match int_shl byte (i * 8) with
    | .error e => .error e
    | .ok shifted => switch_bit_order_loop n (i + 1) field ((result ||| shifted) % 2 ^ 64)

/-- `unsigned long long switch_bit_order(unsigned long long field, u8 size)`. -/
def switch_bit_order (field size : Nat) : Except Fault Nat :=
  switch_bit_order_loop size 0 field 0

/-! ## Parity -/

/-- The `while (signal_field != 0)` loop of `check_parity`; `parity_count` is a
`u8`, so its increment wraps at 256. -/
def check_parity_loop (signal_field parity_count : Nat) : Nat :=
  if h : signal_field ≠ 0 then
    check_parity_loop (signal_field >>> 1)
      (if signal_field &&& 0x01 ≠ 0 then (parity_count + 1) % 256 else parity_count)
  else parity_count
termination_by signal_field
decreasing_by
  rw [Nat.shiftRight_eq_div_pow]
  exact Nat.div_lt_self (Nat.pos_of_ne_zero h) (by norm_num)

/-- `bool check_parity(unsigned long long signal_field, bool is_legacy_signal_field)`. -/
def check_parity (signal_field : Nat) (is_legacy_signal_field : Bool) : Except Fault Bool :=
  if !is_legacy_signal_field then
    .error (.terminated 1 ht_mode_message)
  else
    let signal_field := signal_field >>> 6
    let parity_count := check_parity_loop signal_field 0
    .ok (parity_count % 2 == 0)

/-- `unsigned long long correct_parity(unsigned long long signal_field,
bool bits_reverse_order, bool is_legacy_signal_field)`. -/
def correct_parity (signal_field : Nat) (bits_reverse_order is_legacy_signal_field : Bool) :
    Except Fault Nat :=
  if !is_legacy_signal_field then
    .error (.terminated 1 ht_mode_message)
  else
    (if bits_reverse_order then switch_bit_order signal_field 3 else .ok signal_field)
      >>= fun signal_field =>
    check_parity signal_field is_legacy_signal_field >>= fun parity_ok =>
    let signal_field := if !parity_ok then signal_field ^^^ 0x40 else signal_field
    if bits_reverse_order then switch_bit_order signal_field 3 else .ok signal_field

/-! ## Field codec -/

/-- The `for` loop of `to_unsigned_long_int`; the first argument is the number
of iterations still to run, `result` is an `unsigned long long`. -/
def to_unsigned_long_int_loop : Nat → Nat → List Nat → Nat → Except Fault Nat
  | 0, _, _, result => .ok result
  | n + 1, i, field, result =>
    match field[i]? with
    | none => .error .undefined_behaviour
    | some b => to_unsigned_long_int_loop n (i + 1) field (((result <<< 8) % 2 ^ 64) ||| b)

/-- `unsigned long long to_unsigned_long_int(u8 *field, bool bits_reverse_order, u8 size)`. -/
def to_unsigned_long_int (field : List Nat) (bits_reverse_order : Bool) (size : Nat) :
    Except Fault Nat :=
  to_unsigned_long_int_loop size 0 field 0 >>= fun result =>
  if bits_reverse_order then switch_bit_order result size else .ok result

/-- The `for (i = size - 1; i >= 0; i--)` loop of `to_u8_array`; the first
argument is `i + 1`. -/
def to_u8_array_loop : Nat → Nat → List Nat → Except Fault (List Nat)
  | 0, _, array => .ok array
  | i + 1, signal_field, array =>
    if i < array.length then
      to_u8_array_loop i (signal_field >>> 8) (array.set i ((signal_field &&& 0xff) % 256))
    else .error .undefined_behaviour

/-- `void to_u8_array(unsigned long long signal_field, u8 *array,
bool bits_reverse_order, u8 size)`; the result is the array after the call. -/
def to_u8_array (signal_field : Nat) (array : List Nat) (bits_reverse_order : Bool)
    (size : Nat) : Except Fault (List Nat) :=
  (if bits_reverse_order then switch_bit_order signal_field size else .ok signal_field)
    >>= fun signal_field =>
  to_u8_array_loop size signal_field array

/-- `unsigned long long switch_bit_order_ht(unsigned long long field)`; `left`
and `right` are `unsigned long long`.  The `printf` of the two halves only
produces text. -/
def switch_bit_order_ht (field : Nat) : Except Fault Nat :=
  switch_bit_order (field >>> 24) 3 >>= fun left =>
  switch_bit_order (field &&& 0xffffff) 3 >>= fun right =>
  .ok (((left <<< 24) % 2 ^ 64) ||| right)

/-! ## Hex strings -/

/-- What `to_hex_string` hands back: the address of a string literal, or of a
heap block together with the cells written so far (`none` is a cell that was
never written). -/
inductive HexString where
  | literal (text : String)
  | heap (cells : List (Option Nat))
  deriving DecidableEq, Repr

/-- The string literal returned for a zero size. -/
def zero_size_text : String := "0x00"

/-- The characters `sprintf` produces for `"%02llx"`: the lower-case hex digits
of an `unsigned long long`, padded with a leading zero to two characters. -/
def format_02llx (field : Nat) : List Char :=
  let digits := Nat.toDigits 16 (field % 2 ^ 64)
  List.replicate (2 - digits.length) '0' ++ digits

/-- `ret[i] = c` on a heap block: a store outside the block is undefined. -/
def store_char (cells : List (Option Nat)) (i c : Nat) : Except Fault (List (Option Nat)) :=
  if i < cells.length then .ok (cells.set i (some c)) else .error .undefined_behaviour

/-- `sprintf(&ret[i], ...)`: stores the characters one after the other, then the
terminating zero. -/
def store_text : List Nat → Nat → List (Option Nat) → Except Fault (List (Option Nat))
  | [], i, cells => store_char cells i 0
  | c :: rest, i, cells =>
    match store_char cells i c with
    | .error e => .error e
    | .ok cells => store_text rest (i + 1) cells

/-- Lines 136 to 139 of `to_hex_string`: `malloc(size * 2 + 3)`, the two prefix
characters and the `sprintf`. -/
def to_hex_string_fill (field size : Nat) : Except Fault (List (Option Nat)) :=
  let ret : List (Option Nat) := List.replicate (size * 2 + 3) none
  store_char ret 0 '0'.toNat >>= fun ret =>
  store_char ret 1 'x'.toNat >>= fun ret =>
  store_text ((format_02llx field).map Char.toNat) 2 ret

/-- `char *to_hex_string(unsigned long long field, bool bits_reverse_order, u8 size)`. -/
def to_hex_string (field : Nat) (bits_reverse_order : Bool) (size : Nat) :
    Except Fault HexString :=
  if size < 1 then .ok (.literal zero_size_text)
  else
    (if bits_reverse_order then switch_bit_order field size else .ok field) >>= fun field =>
    to_hex_string_fill field size >>= fun ret =>
    store_char ret (size * 2 + 3) 0 >>= fun ret =>
    .ok (.heap ret)

/-! ## Frame splicer -/

/-- `static const int OFFSET_TMSTMP = 0x8;` -/
def OFFSET_TMSTMP : Int := 0x8

/-- `static const int OFFSET_MAC = 28;` -/
def OFFSET_MAC : Int := 28

/-- Reading `array[i]`. -/
def load (array : List Nat) (i : Nat) : Except Fault Nat :=
  match array[i]? with
  | some b => .ok b
  | none => .error .undefined_behaviour

/-- The loop shape shared by the three splicing functions,
`for (i = 0; i < n; i++) buffer[offset + i] = value(i);`.  The first argument
is the number of iterations still to run; `offset + i` is an `int`, taken
exactly (it stays inside `int` for every buffer shorter than `2 ^ 31` bytes). -/
def store_loop : Nat → Nat → (Nat → Except Fault Nat) → Int → List Nat →
    Except Fault (List Nat)
  | 0, _, _, _, buffer => .ok buffer
  | n + 1, i, value, offset, buffer =>
    match value i with
    | .error e => .error e
    | .ok v =>
      if 0 ≤ offset + i ∧ (offset + i).toNat < buffer.length then
        store_loop n (i + 1) value offset (buffer.set (offset + i).toNat v)
      else .error .undefined_behaviour

/-- `void inject_signal_field(u8 *buffer, u8 *signal_field, bool is_legacy_signal_field)`;
the result is the buffer after the call. -/
def inject_signal_field (buffer signal_field : List Nat) (is_legacy_signal_field : Bool) :
    Except Fault (List Nat) :=
  let guard := if is_legacy_signal_field then 3 else 6
  let fill := if is_legacy_signal_field then 0xaa else 0xbb
  store_loop 8 0 (fun i => if i < guard then load signal_field i else .ok fill)
    OFFSET_TMSTMP buffer

/-- `void log_injected_mac(long long int mac_field)`: the two strings handed to
`printf`, in the order of the two statements.  The argument arrives as an
`unsigned long long`, is held as a `long long` and is passed on as an
`unsigned long long`, which leaves its 64 bits as they are. -/
def log_injected_mac (mac_field : Nat) : Except Fault (HexString × HexString) :=
  to_hex_string mac_field false 4 >>= fun human_readable =>
  to_hex_string mac_field true 4 >>= fun send_out =>
  .ok (human_readable, send_out)

/-- Lines 226 to 232 of `inject_mac`: the four bytes of `mac_field` are put into
the local `mac_field_arr[4]` and copied to `buffer` from `OFFSET_MAC` on.  The
local array starts with arbitrary content, every cell of which `to_u8_array`
overwrites. -/
def inject_mac_store (buffer : List Nat) (mac_field : Nat) : Except Fault (List Nat) :=
  to_u8_array mac_field (List.replicate 4 0) false 4 >>= fun mac_field_arr =>
  store_loop 4 0 (load mac_field_arr) OFFSET_MAC buffer

/-- `void inject_mac(u8 *buffer, unsigned long long mac_field)`; the result is
the buffer after the call.  The call of `log_injected_mac` on line 225 comes
first, so a fault in it ends the call before `buffer` is written. -/
def inject_mac (buffer : List Nat) (mac_field : Nat) : Except Fault (List Nat) :=
  log_injected_mac mac_field >>= fun _ =>
  inject_mac_store buffer mac_field

/-- `void transfer_array(u8 *destination, const u8 *source, int size, int offset)`;
the result is the destination after the call. -/
def transfer_array (destination source : List Nat) (size offset : Int) :
    Except Fault (List Nat) :=
  store_loop size.toNat 0 (load source) offset destination

/-! ## Specification-side notions -/

/-- Number of set bits among the 64 bits of an `unsigned long long`. -/
def set_bit_count (x : Nat) : Nat :=
  (List.range 64).countP fun i => x.testBit i

/-- Byte `k` of a value (byte 0 is the least significant). -/
def byte_at (x k : Nat) : Nat := (x >>> (8 * k)) % 256

/-- The value whose byte `k` is `reverse_byte` of byte `k` of `field` for every
`k < size`, and whose other bytes are zero. -/
def bytewise_reversed : Nat → Nat → Nat
  | 0, _ => 0
  | size + 1, field => reverse_byte (field % 256) + 256 * bytewise_reversed size (field / 256)

/-- What `correct_parity` does between the two bit-order transforms: flip bit 6
exactly when the parity loop reports an odd count. -/
def parity_fixed (x : Nat) : Nat :=
  if check_parity_loop (x >>> 6) 0 % 2 == 0 then x else x ^^^ 0x40

/-- The `k` low bytes of `v`, most significant first. -/
def big_endian_bytes : Nat → Nat → List Nat
  | 0, _ => []
  | k + 1, v => big_endian_bytes k (v / 256) ++ [v % 256]

/-- The sum of `field[start + j] * 256 ^ (n - 1 - j)` over `j < n`: the value of
`n` bytes read with the first byte most significant. -/
def big_endian_sum (field : List Nat) (start n : Nat) : Nat :=
  ((List.range n).map fun j => field.getD (start + j) 0 * 256 ^ (n - 1 - j)).sum

/-! ## Facts about `reverse_byte` -/

theorem reverse_byte_lt (b : Nat) : reverse_byte b < 256 := by
  unfold reverse_byte
  exact Nat.mod_lt _ (by norm_num)

set_option maxRecDepth 100000 in
theorem reverse_byte_twice : ∀ b < 256, reverse_byte (reverse_byte b) = b := by
  decide

set_option maxRecDepth 100000 in
theorem reverse_byte_mirror :
    ∀ b < 256, ∀ i < 8, (reverse_byte b).testBit i = b.testBit (7 - i) := by
  decide

/-! ## Facts about `switch_bit_order` -/

theorem bytewise_reversed_lt (size field : Nat) :
    bytewise_reversed size field < 256 ^ size := by
  induction size generalizing field with
  | zero => simp [bytewise_reversed]
  | succ n ih =>
    have h1 := reverse_byte_lt (field % 256)
    have h2 := ih (field / 256)
    simp only [bytewise_reversed, pow_succ]
    omega

theorem bytewise_reversed_twice (size field : Nat) :
    bytewise_reversed size (bytewise_reversed size field) = field % 256 ^ size := by
  induction size generalizing field with
  | zero => simp [bytewise_reversed, Nat.mod_one]
  | succ n ih =>
    have h1 := reverse_byte_lt (field % 256)
    have hm : (reverse_byte (field % 256) + 256 * bytewise_reversed n (field / 256)) % 256
        = reverse_byte (field % 256) := by omega
    have hd : (reverse_byte (field % 256) + 256 * bytewise_reversed n (field / 256)) / 256
        = bytewise_reversed n (field / 256) := by omega
    rw [bytewise_reversed, bytewise_reversed, hm, hd, ih,
      reverse_byte_twice _ (Nat.mod_lt _ (by norm_num)), pow_succ, Nat.mul_comm (256 ^ n) 256,
      Nat.mod_mul]

/-- Loop invariant of `switch_bit_order` while every shift stays inside `int`:
the bytes already written are kept and the remaining ones are appended above. -/
theorem switch_bit_order_loop_eq (n i field result : Nat) (hi : i + n ≤ 3)
    (hr : result < 256 ^ i) :
    switch_bit_order_loop n i field result
      = .ok (result + 256 ^ i * bytewise_reversed n field) := by
  induction n generalizing i field result with
  | zero => simp [switch_bit_order_loop, bytewise_reversed]
  | succ n ih =>
    have hb := reverse_byte_lt (field % 256)
    have hand : (field &&& 0xff) % 256 = field % 256 := by
      have := Nat.and_pow_two_sub_one_eq_mod field 8
      norm_num at this
      rw [this]; exact Nat.mod_mod _ _
    have hpow : (2 : Nat) ^ (i * 8) = 256 ^ i := by
      rw [Nat.mul_comm, pow_mul]; norm_num
    have hi3 : i ≤ 2 := by omega
    have h256 : 256 ^ i ≤ 256 ^ 2 := Nat.pow_le_pow_right (by norm_num) hi3
    have hshl : int_shl (reverse_byte (field % 256)) (i * 8)
        = .ok (reverse_byte (field % 256) * 256 ^ i) := by
      unfold int_shl
      rw [hpow, if_pos]
      refine ⟨by omega, ?_⟩
      calc reverse_byte (field % 256) * 256 ^ i
          ≤ 255 * 256 ^ 2 := Nat.mul_le_mul (by omega) h256
        _ < 2 ^ 31 := by norm_num
    have hor : result ||| reverse_byte (field % 256) * 256 ^ i
        = result + 256 ^ i * reverse_byte (field % 256) := by
      have h := Nat.mul_add_lt_is_or (i := 8 * i) (b := result)
        (by rw [pow_mul]; norm_num; exact hr) (reverse_byte (field % 256))
      rw [pow_mul] at h
      norm_num at h
      rw [Nat.lor_comm, Nat.mul_comm, ← h, Nat.add_comm]
    have hlt : result + 256 ^ i * reverse_byte (field % 256) < 256 ^ (i + 1) := by
      rw [pow_succ]
      nlinarith
    have hlt64 : result + 256 ^ i * reverse_byte (field % 256) < 2 ^ 64 := by
      have : 256 ^ (i + 1) ≤ 256 ^ 3 := Nat.pow_le_pow_right (by norm_num) (by omega)
      calc _ < 256 ^ (i + 1) := hlt
        _ ≤ 256 ^ 3 := this
        _ < 2 ^ 64 := by norm_num
    simp only [switch_bit_order_loop, hand, hshl, hor, Nat.mod_eq_of_lt hlt64]
    rw [ih (i + 1) _ _ (by omega) hlt, Nat.shiftRight_eq_div_pow, bytewise_reversed]
    congr 1
    norm_num
    ring

/-- For at most three bytes `switch_bit_order` returns, and returns the
byte-wise bit reversal of the low `size` bytes. -/
theorem switch_bit_order_eq (field size : Nat) (hs : size ≤ 3) :
    switch_bit_order field size = .ok (bytewise_reversed size field) := by
  unfold switch_bit_order
  rw [switch_bit_order_loop_eq size 0 field 0 (by omega) (by norm_num)]
  simp

/-! ## Facts about the parity loop -/

/-- One unfolding of the `while` loop; at `signal_field = 0` both sides are
`parity_count`. -/
theorem check_parity_loop_step (signal_field parity_count : Nat) :
    check_parity_loop signal_field parity_count
      = check_parity_loop (signal_field / 2)
          (if signal_field % 2 = 1 then (parity_count + 1) % 256 else parity_count) := by
  by_cases h : signal_field = 0
  · subst h
    simp
  · rw [check_parity_loop]
    simp only [ne_eq, h, not_false_eq_true, ↓reduceDIte, Nat.and_one_is_mod,
      Nat.shiftRight_eq_div_pow, pow_one]
    rcases Nat.mod_two_eq_zero_or_one signal_field with h2 | h2 <;> simp [h2]

theorem check_parity_loop_zero (parity_count : Nat) :
    check_parity_loop 0 parity_count = parity_count := by
  rw [check_parity_loop]
  simp

/-- The starting value of the counter only shifts the parity of the result. -/
theorem check_parity_loop_parity (signal_field parity_count : Nat) :
    check_parity_loop signal_field parity_count % 2
      = (parity_count + check_parity_loop signal_field 0) % 2 := by
  induction signal_field using Nat.strong_induction_on generalizing parity_count with
  | _ x ih =>
    by_cases h : x = 0
    · subst h
      simp [check_parity_loop_zero]
    · have hlt : x / 2 < x := Nat.div_lt_self (Nat.pos_of_ne_zero h) (by norm_num)
      rw [check_parity_loop_step x parity_count, check_parity_loop_step x 0]
      have hA := ih _ hlt (if x % 2 = 1 then (parity_count + 1) % 256 else parity_count)
      have hB := ih _ hlt (if x % 2 = 1 then (0 + 1) % 256 else 0)
      rcases Nat.mod_two_eq_zero_or_one x with h2 | h2 <;> simp only [h2] at hA hB ⊢ <;>
        simp at hA hB ⊢ <;> omega

/-- The loop counts the set bits of a value below `2 ^ k`, up to parity. -/
theorem check_parity_loop_count (k x parity_count : Nat) (hx : x < 2 ^ k) :
    check_parity_loop x parity_count % 2
      = (parity_count + (List.range k).countP fun i => x.testBit i) % 2 := by
  induction k generalizing x parity_count with
  | zero =>
    have : x = 0 := by simpa using hx
    subst this
    simp [check_parity_loop_zero]
  | succ k ih =>
    have hx2 : x / 2 < 2 ^ k := by
      rw [pow_succ] at hx
      omega
    rw [check_parity_loop_step, ih _ _ hx2, List.range_succ_eq_map, List.countP_cons,
      List.countP_map]
    have hfun : ((fun i => x.testBit i) ∘ Nat.succ) = fun i => (x / 2).testBit i := by
      funext i
      simp [Nat.testBit_succ]
    rw [hfun, Nat.testBit_zero]
    rcases Nat.mod_two_eq_zero_or_one x with h2 | h2 <;> simp [h2]
    omega

theorem check_parity_legacy (signal_field : Nat) :
    check_parity signal_field true
      = .ok (check_parity_loop (signal_field >>> 6) 0 % 2 == 0) := by
  simp [check_parity]

theorem shiftRight_six_xor (x : Nat) : (x ^^^ 0x40) >>> 6 = (x >>> 6) ^^^ 1 := by
  apply Nat.eq_of_testBit_eq
  intro j
  have h64 : (0x40 : Nat) = 2 ^ 6 := by norm_num
  have h1 : Nat.testBit 1 j = decide (0 = j) := by
    have h := @Nat.testBit_two_pow 0 j
    simpa using h
  rw [Nat.testBit_shiftRight, Nat.testBit_xor, Nat.testBit_xor, Nat.testBit_shiftRight, h64,
    Nat.testBit_two_pow, h1]
  congr 1
  simp only [decide_eq_decide]
  omega

/-- Flipping bit 6 flips the answer of the parity check. -/
theorem check_parity_loop_flip (x : Nat) :
    (check_parity_loop ((x ^^^ 0x40) >>> 6) 0 % 2 == 0)
      = !(check_parity_loop (x >>> 6) 0 % 2 == 0) := by
  rw [shiftRight_six_xor]
  generalize x >>> 6 = y
  have hdiv : (y ^^^ 1) / 2 = y / 2 := by
    rw [Nat.xor_div_two]
    simp
  have hmod : (y ^^^ 1) % 2 = (y + 1) % 2 := Nat.xor_mod_two_eq
  rw [check_parity_loop_step (y ^^^ 1) 0, check_parity_loop_step y 0, hdiv, hmod,
    check_parity_loop_parity (y / 2) (if (y + 1) % 2 = 1 then (0 + 1) % 256 else 0),
    check_parity_loop_parity (y / 2) (if y % 2 = 1 then (0 + 1) % 256 else 0)]
  rcases Nat.mod_two_eq_zero_or_one y with h2 | h2 <;>
    rcases Nat.mod_two_eq_zero_or_one (check_parity_loop (y / 2) 0) with h3 | h3 <;>
    have h4 : (y + 1) % 2 = 1 - y % 2 := by omega
  all_goals simp [h2, h4, Nat.add_mod, h3]

/-! ## Closed forms of `correct_parity` -/

theorem check_parity_parity_fixed (x : Nat) : check_parity (parity_fixed x) true = .ok true := by
  rw [check_parity_legacy]
  unfold parity_fixed
  by_cases h : (check_parity_loop (x >>> 6) 0 % 2 == 0) = true
  · rw [if_pos h, h]
  · rw [if_neg h, check_parity_loop_flip]
    simp only [Bool.not_eq_true] at h
    rw [h]
    rfl

theorem parity_fixed_of_ok (x : Nat) (h : check_parity x true = .ok true) :
    parity_fixed x = x := by
  rw [check_parity_legacy] at h
  unfold parity_fixed
  rw [if_pos (by simpa using h)]

theorem parity_fixed_lt (x : Nat) (hx : x < 256 ^ 3) : parity_fixed x < 256 ^ 3 := by
  unfold parity_fixed
  split
  · exact hx
  · have h1 : x < 2 ^ 24 := by norm_num at hx ⊢; exact hx
    have h2 : (0x40 : Nat) < 2 ^ 24 := by norm_num
    have := Nat.xor_lt_two_pow h1 h2
    norm_num at this ⊢
    exact this

theorem correct_parity_plain (signal_field : Nat) :
    correct_parity signal_field false true = .ok (parity_fixed signal_field) := by
  unfold correct_parity parity_fixed
  simp only [Bool.not_true, Bool.false_eq_true, ↓reduceIte, check_parity_legacy, bind,
    Except.bind]
  cases check_parity_loop (signal_field >>> 6) 0 % 2 == 0 <;> rfl

theorem correct_parity_reversed (signal_field : Nat) :
    correct_parity signal_field true true
      = .ok (bytewise_reversed 3 (parity_fixed (bytewise_reversed 3 signal_field))) := by
  unfold correct_parity parity_fixed
  simp only [Bool.not_true, Bool.false_eq_true, ↓reduceIte, check_parity_legacy, bind,
    Except.bind, switch_bit_order_eq _ 3 (le_refl 3)]
  cases check_parity_loop (bytewise_reversed 3 signal_field >>> 6) 0 % 2 == 0 <;> rfl

/-! ## Bytes of the byte-wise reversal -/

theorem byte_at_succ (x k : Nat) : byte_at x (k + 1) = byte_at (x / 256) k := by
  unfold byte_at
  rw [Nat.shiftRight_eq_div_pow, Nat.shiftRight_eq_div_pow, Nat.mul_succ, pow_add,
    Nat.mul_comm (2 ^ (8 * k)), ← Nat.div_div_eq_div_mul]
  norm_num

theorem byte_at_zero (x : Nat) : byte_at x 0 = x % 256 := by
  simp [byte_at]

theorem byte_at_bytewise_reversed (size field k : Nat) :
    byte_at (bytewise_reversed size field) k
      = if k < size then reverse_byte (byte_at field k) else 0 := by
  induction size generalizing field k with
  | zero => simp [bytewise_reversed, byte_at]
  | succ n ih =>
    have hr := reverse_byte_lt (field % 256)
    cases k with
    | zero =>
      rw [byte_at_zero, byte_at_zero, bytewise_reversed, if_pos (Nat.succ_pos n)]
      omega
    | succ k =>
      have hd : (reverse_byte (field % 256) + 256 * bytewise_reversed n (field / 256)) / 256
          = bytewise_reversed n (field / 256) := by omega
      rw [byte_at_succ, byte_at_succ, bytewise_reversed, hd, ih]
      simp

/-- Round trip of `switch_bit_order` for the widths where no shift leaves
`int`: one, two and three bytes. -/
theorem switch_bit_order_twice_le_three (v n : Nat) (hn : n ≤ 3) (hv : v < 256 ^ n) :
    (switch_bit_order v n >>= fun w => switch_bit_order w n) = .ok v := by
  rw [switch_bit_order_eq v n hn]
  show switch_bit_order (bytewise_reversed n v) n = .ok v
  rw [switch_bit_order_eq _ n hn, bytewise_reversed_twice, Nat.mod_eq_of_lt hv]

/-- Bytes of the result of `switch_bit_order` for at most three bytes. -/
theorem switch_bit_order_bytes_le_three (field size : Nat) (hs : size ≤ 3) :
    ∃ w, switch_bit_order field size = .ok w ∧
      ∀ k, byte_at w k = if k < size then reverse_byte (byte_at field k) else 0 :=
  ⟨_, switch_bit_order_eq field size hs, byte_at_bytewise_reversed size field⟩

/-! ## The claims -/

/-- C1: `switch_bit_order` applied twice is not the identity on every width from
1 to 8.  At five bytes the value `0x100000000` needs the `int` shift
`0x80 << 32`, and at four bytes the value `0x81000000` needs `0x81 << 24`; both
inputs fit their width, and both shifts leave `int`, so neither round trip
returns the value it started from. -/
theorem switch_bit_order_twice_leaves_int :
    0x100000000 < 256 ^ 5 ∧
    (switch_bit_order 0x100000000 5 >>= fun w => switch_bit_order w 5)
      = .error .undefined_behaviour ∧
    0x81000000 < 256 ^ 4 ∧
    (switch_bit_order 0x81000000 4 >>= fun w => switch_bit_order w 4)
      = .error .undefined_behaviour :=
  ⟨by norm_num, rfl, by norm_num, rfl⟩

/-- C2: with the reverse flag set, reading the five bytes `01 00 00 00 00` and
writing the value back does not reproduce them: the bit-order transform inside
`to_unsigned_long_int` shifts an `int` by 32, so no array is produced. -/
theorem codec_round_trip_reverse_five_bytes :
    to_unsigned_long_int [1, 0, 0, 0, 0] true 5 = .error .undefined_behaviour ∧
    (to_unsigned_long_int [1, 0, 0, 0, 0] true 5 >>= fun v =>
      to_u8_array v [0, 0, 0, 0, 0] true 5) = .error .undefined_behaviour :=
  ⟨rfl, rfl⟩

/-- C3: for `field = 0x100000000` and `size = 5` the byte-wise bit reversal is
`0x8000000000`, but `switch_bit_order` does not return it: the shift
`0x80 << 32` is made in `int`.  The same happens at `size = 4` for
`field = 0x01000000`, where `0x80 << 24` does not fit in `int`.  The scenario
`switch_bit_order(0x01, 1) = 0x80` does hold. -/
theorem switch_bit_order_five_bytes_not_bytewise :
    bytewise_reversed 5 0x100000000 = 0x8000000000 ∧
    switch_bit_order 0x100000000 5 = .error .undefined_behaviour ∧
    bytewise_reversed 4 0x01000000 = 0x80000000 ∧
    switch_bit_order 0x01000000 4 = .error .undefined_behaviour ∧
    switch_bit_order 0x01 1 = .ok 0x80 :=
  ⟨rfl, rfl, rfl, rfl, rfl⟩

/-- C4: for a 64-bit field, `check_parity(field, true)` returns, and returns
true exactly when the number of set bits of `field >> 6` is even. -/
theorem check_parity_iff_even_set_bits (field : Nat) (hf : field < 2 ^ 64) :
    check_parity field true = .ok (decide (set_bit_count (field >>> 6) % 2 = 0)) := by
  have hshift : field >>> 6 < 2 ^ 64 := by
    rw [Nat.shiftRight_eq_div_pow]
    exact lt_of_le_of_lt (Nat.div_le_self _ _) hf
  have h := check_parity_loop_count 64 (field >>> 6) 0 hshift
  rw [Nat.zero_add] at h
  rw [check_parity_legacy]
  unfold set_bit_count
  congr 1
  rw [Bool.eq_iff_iff]
  simp only [beq_iff_eq, decide_eq_true_eq]
  rw [h]

/-- C4, at a field with three set bits above the tail. -/
theorem check_parity_iff_even_set_bits_witness :
    0x1C0 < 2 ^ 64 ∧
    check_parity 0x1C0 true = .ok (decide (set_bit_count (0x1C0 >>> 6) % 2 = 0)) :=
  ⟨by norm_num, check_parity_iff_even_set_bits 0x1C0 (by norm_num)⟩

/-- C5: in legacy mode the result of `correct_parity` passes `check_parity`:
directly when the bits are in natural order, and after `switch_bit_order` with
three bytes when they are in reverse order. -/
theorem correct_parity_passes_check (f : Nat) :
    (∃ g, correct_parity f false true = .ok g ∧ check_parity g true = .ok true) ∧
    (∃ g w, correct_parity f true true = .ok g ∧ switch_bit_order g 3 = .ok w ∧
      check_parity w true = .ok true) := by
  refine ⟨⟨_, correct_parity_plain f, check_parity_parity_fixed f⟩,
    ⟨_, _, correct_parity_reversed f, switch_bit_order_eq _ 3 (le_refl 3), ?_⟩⟩
  rw [bytewise_reversed_twice,
    Nat.mod_eq_of_lt (parity_fixed_lt _ (bytewise_reversed_lt 3 f))]
  exact check_parity_parity_fixed _

/-- C6: in legacy mode `correct_parity` returns a value on which a second call
with the same flag returns that same value. -/
theorem correct_parity_idempotent (f : Nat) (r : Bool) :
    ∃ g, correct_parity f r true = .ok g ∧ correct_parity g r true = .ok g := by
  cases r with
  | false =>
    refine ⟨_, correct_parity_plain f, ?_⟩
    rw [correct_parity_plain, parity_fixed_of_ok _ (check_parity_parity_fixed f)]
  | true =>
    refine ⟨_, correct_parity_reversed f, ?_⟩
    rw [correct_parity_reversed, bytewise_reversed_twice,
      Nat.mod_eq_of_lt (parity_fixed_lt _ (bytewise_reversed_lt 3 f)),
      parity_fixed_of_ok _ (check_parity_parity_fixed _)]

/-- C7: a field whose parity is already correct is returned unchanged.  In
natural bit order `correct_parity` returns the field itself; in reverse bit
order it returns the field sent twice through `switch_bit_order` with three
bytes, which is the field itself when it fits in three bytes. -/
theorem correct_parity_keeps_correct_field (f : Nat) :
    (check_parity f true = .ok true → correct_parity f false true = .ok f) ∧
    ((switch_bit_order f 3 >>= fun g => check_parity g true) = .ok true →
      correct_parity f true true = (switch_bit_order f 3 >>= fun g => switch_bit_order g 3) ∧
      (f < 2 ^ 24 → correct_parity f true true = .ok f)) := by
  constructor
  · intro h
    rw [correct_parity_plain, parity_fixed_of_ok f h]
  · intro h
    rw [switch_bit_order_eq f 3 (le_refl 3)] at h ⊢
    have h2 : check_parity (bytewise_reversed 3 f) true = .ok true := h
    have h3 : correct_parity f true true = .ok (bytewise_reversed 3 (bytewise_reversed 3 f)) := by
      rw [correct_parity_reversed, parity_fixed_of_ok _ h2]
    refine ⟨?_, ?_⟩
    · rw [h3]
      exact (switch_bit_order_eq _ 3 (le_refl 3)).symm
    · intro hf
      rw [h3, bytewise_reversed_twice, Nat.mod_eq_of_lt (by norm_num; exact hf)]

/-- C7, at the field `0x03`, whose parity is correct in both bit orders. -/
theorem correct_parity_keeps_correct_field_witness :
    correct_parity 0x03 false true = .ok 0x03 ∧ correct_parity 0x03 true true = .ok 0x03 :=
  ⟨(correct_parity_keeps_correct_field 0x03).1 (by simp [check_parity, check_parity_loop]),
    ((correct_parity_keeps_correct_field 0x03).2
      (by
        show check_parity 0xC0 true = .ok true
        simp [check_parity, check_parity_loop])).2 (by norm_num)⟩

/-- C8: with the legacy flag cleared, `check_parity` and `correct_parity` print
the unsupported-mode message and call `exit(1)` without returning a value; with
the flag set, both return a value. -/
theorem unsupported_mode_only_when_not_legacy (f : Nat) (r : Bool) :
    check_parity f false = .error (.terminated 1 ht_mode_message) ∧
    correct_parity f r false = .error (.terminated 1 ht_mode_message) ∧
    (∃ b, check_parity f true = .ok b) ∧
    (∃ g, correct_parity f r true = .ok g) := by
  refine ⟨rfl, rfl, ⟨_, check_parity_legacy f⟩, ?_⟩
  cases r with
  | false => exact ⟨_, correct_parity_plain f⟩
  | true => exact ⟨_, correct_parity_reversed f⟩

/-- C9: for every byte `b` and every bit position `i` from 0 to 7, bit `i` of
`reverse_byte b` is bit `7 - i` of `b`. -/
theorem reverse_byte_bit (b i : Nat) (hb : b < 256) (hi : i ≤ 7) :
    (reverse_byte b).testBit i = b.testBit (7 - i) :=
  reverse_byte_mirror b hb i (Nat.lt_succ_of_le hi)

/-- C9, at the byte `0x01` and bit 7. -/
theorem reverse_byte_bit_witness :
    (reverse_byte 0x01).testBit 7 = (0x01 : Nat).testBit (7 - 7) :=
  reverse_byte_bit 0x01 7 (by norm_num) (by norm_num)

/-- C10: for every byte value `b` from 0 to 255, reversing twice gives `b`. -/
theorem reverse_byte_involution (b : Nat) (hb : b < 256) :
    reverse_byte (reverse_byte b) = b :=
  reverse_byte_twice b hb

/-- C10, at the byte `0x35`. -/
theorem reverse_byte_involution_witness : reverse_byte (reverse_byte 0x35) = 0x35 :=
  reverse_byte_involution 0x35 (by norm_num)

/-! ## Facts about the splicing loop and the codec -/

theorem store_loop_spec (n i : Nat) (value : Nat → Except Fault Nat) (g : Nat → Nat)
    (off : Nat) (buffer : List Nat)
    (hval : ∀ j, i ≤ j → j < i + n → value j = .ok (g j))
    (hlen : off + i + n ≤ buffer.length) :
    ∃ r, store_loop n i value (off : Int) buffer = .ok r ∧ r.length = buffer.length ∧
      ∀ j, r[j]? = if off + i ≤ j ∧ j < off + i + n then some (g (j - off)) else buffer[j]? := by
  induction n generalizing i buffer with
  | zero =>
    refine ⟨buffer, rfl, rfl, fun j => ?_⟩
    rw [if_neg (by omega)]
  | succ n ih =>
    have hcast : ((off : Int) + (i : Int)).toNat = off + i := by
      rw [← Int.natCast_add, Int.toNat_natCast]
    have hnonneg : (0 : Int) ≤ (off : Int) + (i : Int) := by omega
    obtain ⟨r, hr, hrl, hrj⟩ := ih (i + 1) (buffer.set (off + i) (g i))
      (fun j h1 h2 => hval j (by omega) (by omega))
      (by rw [List.length_set]; omega)
    refine ⟨r, ?_, ?_, fun j => ?_⟩
    · rw [store_loop, hval i (le_refl i) (by omega)]
      simp only [hcast, hnonneg, true_and]
      rw [if_pos (by omega)]
      exact hr
    · rw [hrl, List.length_set]
    · rw [hrj, List.getElem?_set]
      by_cases h1 : off + i = j
      · subst h1
        rw [if_neg (by omega), if_pos rfl, if_pos (by omega), if_pos (by omega)]
        congr 2
        omega
      · by_cases h2 : off + (i + 1) ≤ j ∧ j < off + (i + 1) + n
        · rw [if_pos h2, if_pos (by omega)]
        · rw [if_neg h2, if_neg h1, if_neg (by omega)]


theorem load_eq (array : List Nat) (i : Nat) (h : i < array.length) :
    load array i = .ok (array.getD i 0) := by
  unfold load
  rw [List.getElem?_eq_getElem h, List.getD_eq_getElem?_getD, List.getElem?_eq_getElem h]
  rfl

theorem length_big_endian_bytes (k v : Nat) : (big_endian_bytes k v).length = k := by
  induction k generalizing v with
  | zero => rfl
  | succ k ih => simp [big_endian_bytes, ih]

theorem getElem?_big_endian_bytes (k v i : Nat) (hi : i < k) :
    (big_endian_bytes k v)[i]? = some (v / 256 ^ (k - 1 - i) % 256) := by
  induction k generalizing v with
  | zero => omega
  | succ k ih =>
    rw [big_endian_bytes]
    by_cases h : i < k
    · have he : k + 1 - 1 - i = (k - 1 - i) + 1 := by omega
      rw [List.getElem?_append_left (by rw [length_big_endian_bytes]; exact h), ih _ h,
        Nat.div_div_eq_div_mul, he, pow_succ']
    · have hik : i = k := by omega
      subst hik
      rw [List.getElem?_append_right (by rw [length_big_endian_bytes]),
        length_big_endian_bytes]
      simp

theorem shift_and_eq_div_mod (v m : Nat) : (v >>> (8 * m)) &&& 0xff = v / 256 ^ m % 256 := by
  have h := Nat.and_pow_two_sub_one_eq_mod (v >>> (8 * m)) 8
  norm_num at h
  rw [h, Nat.shiftRight_eq_div_pow, pow_mul]
  norm_num

theorem and_ff_mod (v : Nat) : (v &&& 0xff) % 256 = v % 256 := by
  have h := Nat.and_pow_two_sub_one_eq_mod v 8
  norm_num at h
  rw [h, Nat.mod_mod]

theorem to_u8_array_loop_eq (k signal_field : Nat) (array : List Nat) (hk : k ≤ array.length) :
    to_u8_array_loop k signal_field array
      = .ok (big_endian_bytes k signal_field ++ array.drop k) := by
  induction k generalizing signal_field array with
  | zero => simp [to_u8_array_loop, big_endian_bytes]
  | succ k ih =>
    rw [to_u8_array_loop, if_pos (by omega), ih _ _ (by rw [List.length_set]; omega),
      big_endian_bytes, and_ff_mod, Nat.shiftRight_eq_div_pow]
    congr 1
    rw [List.append_assoc]
    congr 1
    rw [List.drop_set, if_neg (lt_irrefl k), Nat.sub_self,
      List.drop_eq_getElem_cons (by omega : k < array.length), List.set_cons_zero]
    rfl


theorem getD_big_endian_bytes (k v i : Nat) (hi : i < k) :
    (big_endian_bytes k v).getD i 0 = v / 256 ^ (k - 1 - i) % 256 := by
  rw [List.getD_eq_getElem?_getD, getElem?_big_endian_bytes k v i hi]
  rfl

theorem to_u8_array_plain (field n : Nat) (out : List Nat) (hn : n ≤ out.length) :
    to_u8_array field out false n = .ok (big_endian_bytes n field ++ out.drop n) :=
  to_u8_array_loop_eq n field out hn

/-- C12: without bit reversal, `to_u8_array` stores byte `n - 1 - i` of the
field at index `i` for every `i < n` and leaves the rest of the array as it
was. -/
theorem to_u8_array_big_endian (field n : Nat) (out : List Nat) (hn : n ≤ out.length) :
    ∃ r, to_u8_array field out false n = .ok r ∧ r.length = out.length ∧
      (∀ i, i < n → r[i]? = some ((field >>> (8 * (n - 1 - i))) &&& 0xff)) ∧
      (∀ i, n ≤ i → r[i]? = out[i]?) := by
  refine ⟨_, to_u8_array_plain field n out hn, ?_, ?_, ?_⟩
  · rw [List.length_append, length_big_endian_bytes, List.length_drop]
    omega
  · intro i hi
    rw [List.getElem?_append_left (by rw [length_big_endian_bytes]; exact hi),
      getElem?_big_endian_bytes n field i hi, shift_and_eq_div_mod]
  · intro i hi
    rw [List.getElem?_append_right (by rw [length_big_endian_bytes]; exact hi),
      length_big_endian_bytes, List.getElem?_drop]
    congr 1
    omega

/-- C13: `inject_signal_field` rewrites exactly the eight bytes from offset 8:
the first 3 (legacy) or 6 (HT) come from `signal_field`, the others are the
fill byte `0xAA` (legacy) or `0xBB` (HT); all other bytes of the buffer are
kept. -/
theorem inject_signal_field_window (buffer signal_field : List Nat) (legacy : Bool)
    (hb : 16 ≤ buffer.length) (hs : (if legacy then 3 else 6) ≤ signal_field.length) :
    ∃ r, inject_signal_field buffer signal_field legacy = .ok r ∧
      r.length = buffer.length ∧
      (∀ i, i < (if legacy then 3 else 6) → r[8 + i]? = signal_field[i]?) ∧
      (∀ i, (if legacy then 3 else 6) ≤ i → i < 8 →
        r[8 + i]? = some (if legacy then 0xaa else 0xbb)) ∧
      (∀ j, j < 8 ∨ 16 ≤ j → r[j]? = buffer[j]?) := by
  have hg : (if legacy then 3 else 6) ≤ 6 := by split <;> omega
  obtain ⟨r, hr, hrl, hrj⟩ := store_loop_spec 8 0
    (fun i => if i < (if legacy then 3 else 6) then load signal_field i
      else .ok (if legacy then 0xaa else 0xbb))
    (fun i => if i < (if legacy then 3 else 6) then signal_field.getD i 0
      else (if legacy then 0xaa else 0xbb))
    8 buffer
    (by
      intro j _ _
      by_cases h : j < (if legacy then 3 else 6)
      · simp only [if_pos h]
        exact load_eq _ _ (by omega)
      · simp only [if_neg h])
    (by omega)
  refine ⟨r, hr, hrl, ?_, ?_, ?_⟩
  · intro i hi
    rw [hrj, if_pos (by omega)]
    have : 8 + i - 8 = i := by omega
    rw [this, if_pos hi, List.getD_eq_getElem?_getD, List.getElem?_eq_getElem (by omega)]
    rfl
  · intro i hi hi8
    rw [hrj, if_pos (by omega)]
    have : 8 + i - 8 = i := by omega
    rw [this, if_neg (by omega)]
  · intro j hj
    rw [hrj, if_neg (by omega)]

/-- The byte-writing part of `inject_mac` rewrites exactly the four bytes from
offset 28 with the low 32 bits of `mac_field`, most significant byte first and
without bit reversal; all other bytes of the buffer are kept. -/
theorem inject_mac_store_bytes (buffer : List Nat) (mac_field : Nat)
    (hb : 32 ≤ buffer.length) :
    ∃ r, inject_mac_store buffer mac_field = .ok r ∧ r.length = buffer.length ∧
      (∀ i, i < 4 → r[28 + i]? = some ((mac_field >>> (8 * (3 - i))) &&& 0xff)) ∧
      (∀ j, j < 28 ∨ 32 ≤ j → r[j]? = buffer[j]?) := by
  have harr : to_u8_array mac_field (List.replicate 4 0) false 4
      = .ok (big_endian_bytes 4 mac_field) := by
    rw [to_u8_array_plain _ _ _ (by simp)]
    simp
  obtain ⟨r, hr, hrl, hrj⟩ := store_loop_spec 4 0 (load (big_endian_bytes 4 mac_field))
    (fun i => (big_endian_bytes 4 mac_field).getD i 0) 28 buffer
    (fun j _ hj => load_eq _ _ (by rw [length_big_endian_bytes]; omega))
    (by omega)
  refine ⟨r, ?_, hrl, ?_, ?_⟩
  · unfold inject_mac_store
    rw [harr]
    exact hr
  · intro i hi
    rw [hrj, if_pos (by omega)]
    have : 28 + i - 28 = i := by omega
    rw [this, getD_big_endian_bytes 4 mac_field i hi, shift_and_eq_div_mod]
  · intro j hj
    rw [hrj, if_neg (by omega)]

/-- C15: for a non-negative `size` and `offset` inside both arrays,
`transfer_array` leaves `destination[offset + i] = source[i]` for every
`i < size` and every other byte of the destination as it was; for `size ≤ 0`
the destination is unchanged. -/
theorem transfer_array_copies (destination source : List Nat) (size offset : Int) :
    (0 ≤ size → 0 ≤ offset → size ≤ source.length → offset + size ≤ destination.length →
      ∃ r, transfer_array destination source size offset = .ok r ∧
        r.length = destination.length ∧
        (∀ i : Nat, (i : Int) < size → r[offset.toNat + i]? = source[i]?) ∧
        (∀ j : Nat, ((j : Int) < offset ∨ offset + size ≤ j) → r[j]? = destination[j]?)) ∧
    (size ≤ 0 → transfer_array destination source size offset = .ok destination) := by
  constructor
  · intro h0 h1 hs hd
    obtain ⟨n, rfl⟩ := Int.eq_ofNat_of_zero_le h0
    obtain ⟨off, rfl⟩ := Int.eq_ofNat_of_zero_le h1
    obtain ⟨r, hr, hrl, hrj⟩ := store_loop_spec n 0 (load source)
      (fun i => source.getD i 0) off destination
      (fun j _ hj => load_eq _ _ (by omega))
      (by omega)
    refine ⟨r, ?_, hrl, ?_, ?_⟩
    · unfold transfer_array
      rw [Int.toNat_natCast]
      exact hr
    · intro i hi
      rw [Int.toNat_natCast, hrj, if_pos (by omega)]
      have : off + i - off = i := by omega
      rw [this, List.getD_eq_getElem?_getD, List.getElem?_eq_getElem (by omega)]
      rfl
    · intro j hj
      rw [hrj, if_neg (by omega)]
  · intro h
    unfold transfer_array
    rw [Int.toNat_eq_zero.mpr h]
    rfl


theorem big_endian_sum_succ (field : List Nat) (start n : Nat) :
    big_endian_sum field start (n + 1)
      = field.getD start 0 * 256 ^ n + big_endian_sum field (start + 1) n := by
  unfold big_endian_sum
  rw [List.range_succ_eq_map, List.map_cons, List.sum_cons, List.map_map]
  congr 1
  congr 1
  apply List.map_congr_left
  intro j _
  have e1 : start + (j + 1) = start + 1 + j := by omega
  have e2 : n + 1 - 1 - (j + 1) = n - 1 - j := by omega
  simp only [Function.comp, Nat.succ_eq_add_one, e1, e2]

theorem to_unsigned_long_int_loop_eq (k i : Nat) (field : List Nat) (result : Nat)
    (hlen : i + k ≤ field.length) (h8 : i + k ≤ 8) (hr : result < 256 ^ i)
    (hb : ∀ j, i ≤ j → j < i + k → field.getD j 0 < 256) :
    to_unsigned_long_int_loop k i field result
      = .ok (result * 256 ^ k + big_endian_sum field i k) := by
  induction k generalizing i result with
  | zero => simp [to_unsigned_long_int_loop, big_endian_sum]
  | succ k ih =>
    have hi : i < field.length := by omega
    have hbi := hb i (le_refl i) (by omega)
    have hget : field[i]? = some (field.getD i 0) := by
      rw [List.getD_eq_getElem?_getD, List.getElem?_eq_getElem hi]
      rfl
    have h7 : 256 ^ i ≤ 256 ^ 7 := Nat.pow_le_pow_right (by norm_num) (by omega)
    have hshl : (result <<< 8) % 2 ^ 64 = 2 ^ 8 * result := by
      rw [Nat.shiftLeft_eq, Nat.mul_comm]
      apply Nat.mod_eq_of_lt
      have : (256 : Nat) ^ 7 * 2 ^ 8 = 2 ^ 64 := by norm_num
      nlinarith
    have hor : 2 ^ 8 * result ||| field.getD i 0 = result * 256 + field.getD i 0 := by
      rw [← Nat.mul_add_lt_is_or (lt_of_lt_of_eq hbi (by norm_num)) result]
      ring
    have hnew : result * 256 + field.getD i 0 < 256 ^ (i + 1) := by
      rw [pow_succ]
      nlinarith
    rw [to_unsigned_long_int_loop, hget]
    simp only [hshl, hor]
    rw [ih (i + 1) _ (by omega) (by omega) hnew (fun j h1 h2 => hb j (by omega) (by omega)),
      big_endian_sum_succ]
    congr 1
    ring

theorem big_endian_sum_digits (field : List Nat) (v start n : Nat)
    (h : ∀ j, j < n → field.getD (start + j) 0 = v / 256 ^ (n - 1 - j) % 256) :
    big_endian_sum field start n = v % 256 ^ n := by
  induction n generalizing start with
  | zero => simp [big_endian_sum, Nat.mod_one]
  | succ n ih =>
    have h0 := h 0 (Nat.succ_pos n)
    simp only [Nat.add_zero, Nat.add_sub_cancel, Nat.sub_zero] at h0
    rw [big_endian_sum_succ, h0, ih (start + 1) (fun j hj => by
      have := h (j + 1) (by omega)
      have e1 : start + 1 + j = start + (j + 1) := by omega
      have e2 : n + 1 - 1 - (j + 1) = n - 1 - j := by omega
      rw [e1, this, e2]), Nat.mod_pow_succ]
    ring

/-- C11: for at most eight bytes, `to_unsigned_long_int` without bit reversal
returns the sum of `bytes[i] * 256 ^ (n - 1 - i)`, and with bit reversal it
returns what `switch_bit_order` makes of that value with size `n`. -/
theorem to_unsigned_long_int_big_endian (bytes : List Nat) (n : Nat) (hn : n ≤ 8)
    (hlen : bytes.length = n) (hb : ∀ b ∈ bytes, b < 256) :
    to_unsigned_long_int bytes false n = .ok (big_endian_sum bytes 0 n) ∧
    to_unsigned_long_int bytes true n = switch_bit_order (big_endian_sum bytes 0 n) n := by
  have hloop : to_unsigned_long_int_loop n 0 bytes 0 = .ok (big_endian_sum bytes 0 n) := by
    rw [to_unsigned_long_int_loop_eq n 0 bytes 0 (by omega) (by omega) (by norm_num)
      (fun j _ hj => by
        rw [List.getD_eq_getElem?_getD, List.getElem?_eq_getElem (by omega)]
        exact hb _ (List.getElem_mem _))]
    simp
  constructor
  · unfold to_unsigned_long_int
    rw [hloop]
    rfl
  · unfold to_unsigned_long_int
    rw [hloop]
    rfl

/-- C20: without bit reversal, writing `v` as `n` bytes and reading the bytes
back gives `v mod 2 ^ (8 n)`, which is `v` exactly when `v` fits in `n`
bytes. -/
theorem to_u8_array_read_back (v n : Nat) (out : List Nat) (hn : n ≤ 8)
    (hout : n ≤ out.length) :
    (to_u8_array v out false n >>= fun a => to_unsigned_long_int a false n)
      = .ok (v % 2 ^ (8 * n)) ∧
    ((to_u8_array v out false n >>= fun a => to_unsigned_long_int a false n) = .ok v
      ↔ v < 2 ^ (8 * n)) := by
  have hpow : (2 : Nat) ^ (8 * n) = 256 ^ n := by
    rw [pow_mul]
    norm_num
  have hget : ∀ j, j < n →
      (big_endian_bytes n v ++ out.drop n).getD (0 + j) 0 = v / 256 ^ (n - 1 - j) % 256 := by
    intro j hj
    rw [Nat.zero_add, List.getD_eq_getElem?_getD,
      List.getElem?_append_left (by rw [length_big_endian_bytes]; exact hj),
      getElem?_big_endian_bytes n v j hj]
    rfl
  have hlen : (big_endian_bytes n v ++ out.drop n).length = out.length := by
    rw [List.length_append, length_big_endian_bytes, List.length_drop]
    omega
  have hmain : (to_u8_array v out false n >>= fun a => to_unsigned_long_int a false n)
      = .ok (v % 2 ^ (8 * n)) := by
    rw [to_u8_array_plain v n out hout]
    show to_unsigned_long_int _ false n = _
    unfold to_unsigned_long_int
    rw [to_unsigned_long_int_loop_eq n 0 _ 0 (by omega) (by omega) (by norm_num)
      (fun j _ hj => by
        have := hget j (by omega)
        rw [Nat.zero_add] at this
        rw [this]
        exact Nat.mod_lt _ (by norm_num)),
      big_endian_sum_digits _ v 0 n hget, hpow]
    simp [bind, Except.bind]
  refine ⟨hmain, ?_⟩
  rw [hmain]
  constructor
  · intro h
    have h2 : v % 2 ^ (8 * n) = v := by
      injection h
    rw [← h2]
    exact Nat.mod_lt _ (by positivity)
  · intro h
    rw [Nat.mod_eq_of_lt h]

/-! ## Facts about `to_hex_string` -/

theorem store_char_length (cells r : List (Option Nat)) (i c : Nat)
    (h : store_char cells i c = .ok r) : r.length = cells.length := by
  unfold store_char at h
  split at h
  · injection h with h
    rw [← h, List.length_set]
  · cases h

theorem store_char_ok (cells : List (Option Nat)) (i c : Nat) (h : i < cells.length) :
    store_char cells i c = .ok (cells.set i (some c)) := by
  unfold store_char
  rw [if_pos h]

theorem store_char_outside (cells : List (Option Nat)) (i c : Nat) (h : cells.length ≤ i) :
    store_char cells i c = .error .undefined_behaviour := by
  unfold store_char
  rw [if_neg (by omega)]

theorem store_text_length (text : List Nat) (i : Nat) (cells r : List (Option Nat))
    (h : store_text text i cells = .ok r) : r.length = cells.length := by
  induction text generalizing i cells with
  | nil => exact store_char_length _ _ _ _ h
  | cons c rest ih =>
    rw [store_text] at h
    by_cases hi : i < cells.length
    · rw [store_char_ok _ _ _ hi] at h
      rw [ih _ _ h, List.length_set]
    · rw [store_char_outside _ _ _ (by omega)] at h
      cases h

theorem store_text_ok (text : List Nat) (i : Nat) (cells : List (Option Nat))
    (h : i + text.length < cells.length) : ∃ r, store_text text i cells = .ok r := by
  induction text generalizing i cells with
  | nil => exact ⟨_, store_char_ok _ _ _ (by simpa using h)⟩
  | cons c rest ih =>
    rw [List.length_cons] at h
    rw [store_text, store_char_ok _ _ _ (by omega)]
    exact ih _ _ (by rw [List.length_set]; omega)

theorem to_hex_string_fill_length (field size : Nat) (ret : List (Option Nat))
    (h : to_hex_string_fill field size = .ok ret) : ret.length = size * 2 + 3 := by
  unfold to_hex_string_fill at h
  dsimp only at h
  rw [store_char_ok _ _ _ (by rw [List.length_replicate]; omega)] at h
  simp only [bind, Except.bind] at h
  rw [store_char_ok _ _ _ (by rw [List.length_set, List.length_replicate]; omega)] at h
  simp only at h
  rw [store_text_length _ _ _ _ h, List.length_set, List.length_set, List.length_replicate]

theorem format_02llx_length (field size : Nat) (hs : 1 ≤ size) (hf : field < 256 ^ size) :
    (format_02llx field).length ≤ 2 * size := by
  have h16 : field % 2 ^ 64 < 16 ^ (2 * size) := by
    have : (16 : Nat) ^ (2 * size) = 256 ^ size := by
      rw [pow_mul]
      norm_num
    rw [this]
    exact lt_of_le_of_lt (Nat.mod_le _ _) hf
  have hd : (Nat.toDigits 16 (field % 2 ^ 64)).length ≤ 2 * size :=
    Nat.toDigitsCore_length 16 (by norm_num) _ _ _ h16 (by omega)
  unfold format_02llx
  simp only [List.length_append, List.length_replicate]
  omega

/-- The stores of lines 137 to 139 stay inside the block when the field fits
in `size` bytes. -/
theorem to_hex_string_fill_ok (field size : Nat) (hs : 1 ≤ size)
    (hf : field < 256 ^ size) :
    ∃ ret, to_hex_string_fill field size = .ok ret ∧ ret.length = size * 2 + 3 := by
  have hlen := format_02llx_length field size hs hf
  obtain ⟨ret, hret⟩ := store_text_ok ((format_02llx field).map Char.toNat) 2
    (((List.replicate (size * 2 + 3) (none : Option Nat)).set 0 (some '0'.toNat)).set 1
      (some 'x'.toNat))
    (by
      rw [List.length_map, List.length_set, List.length_set, List.length_replicate]
      omega)
  have h : to_hex_string_fill field size = .ok ret := by
    unfold to_hex_string_fill
    dsimp only
    rw [store_char_ok _ _ _ (by rw [List.length_replicate]; omega)]
    simp only [bind, Except.bind]
    rw [store_char_ok _ _ _ (by rw [List.length_set, List.length_replicate]; omega)]
    exact hret
  exact ⟨ret, h, to_hex_string_fill_length _ _ _ h⟩

/-- For a non-zero size `to_hex_string` never hands back a string: the store of
line 140 is one past the end of the block. -/
theorem to_hex_string_no_result (field : Nat) (reverse : Bool) (size : Nat) (hs : 1 ≤ size)
    (s : HexString) : to_hex_string field reverse size ≠ .ok s := by
  unfold to_hex_string
  rw [if_neg (by omega)]
  intro h
  cases h1 : (if reverse = true then switch_bit_order field size else Except.ok field) with
  | error e =>
    rw [h1] at h
    cases h
  | ok v =>
    rw [h1] at h
    simp only [bind, Except.bind] at h
    cases h2 : to_hex_string_fill v size with
    | error e =>
      rw [h2] at h
      cases h
    | ok ret =>
      rw [h2] at h
      simp only at h
      rw [store_char_outside _ _ _ (by rw [to_hex_string_fill_length _ _ _ h2])] at h
      cases h

/-- The logging call never comes back: its first `to_hex_string` has size 4. -/
theorem log_injected_mac_no_result (mac_field : Nat) (texts : HexString × HexString) :
    log_injected_mac mac_field ≠ .ok texts := by
  unfold log_injected_mac
  intro h
  cases h1 : to_hex_string mac_field false 4 with
  | error e =>
    rw [h1] at h
    cases h
  | ok s => exact to_hex_string_no_result mac_field false 4 (by norm_num) s h1

/-- With the logging call in front, `inject_mac` hands back no buffer for any
buffer and any field. -/
theorem inject_mac_no_result (buffer : List Nat) (mac_field : Nat) (r : List Nat) :
    inject_mac buffer mac_field ≠ .ok r := by
  unfold inject_mac
  intro h
  cases h1 : log_injected_mac mac_field with
  | error e =>
    rw [h1] at h
    cases h
  | ok texts => exact log_injected_mac_no_result mac_field texts h1

/-! ## Facts about `switch_bit_order_ht` and the parity bit in wire order -/

theorem bytewise_reversed_add (a b field : Nat) :
    bytewise_reversed (a + b) field
      = bytewise_reversed a field + 256 ^ a * bytewise_reversed b (field / 256 ^ a) := by
  induction a generalizing field with
  | zero => simp [bytewise_reversed]
  | succ a ih =>
    have e : a + 1 + b = (a + b) + 1 := by omega
    rw [e, bytewise_reversed, bytewise_reversed, ih, Nat.div_div_eq_div_mul, pow_succ']
    ring

theorem bytewise_reversed_mod (n field : Nat) :
    bytewise_reversed n (field % 256 ^ n) = bytewise_reversed n field := by
  induction n generalizing field with
  | zero => rfl
  | succ n ih =>
    have h := Nat.mod_mul (x := field) (a := 256) (b := 256 ^ n)
    have hlt : field % 256 < 256 := Nat.mod_lt _ (by norm_num)
    have hm : (field % 256 + 256 * (field / 256 % 256 ^ n)) % 256 = field % 256 := by omega
    have hd : (field % 256 + 256 * (field / 256 % 256 ^ n)) / 256 = field / 256 % 256 ^ n := by
      omega
    rw [bytewise_reversed, bytewise_reversed, pow_succ', h, hm, hd, ih]

theorem switch_bit_order_ht_eq (field : Nat) :
    switch_bit_order_ht field = .ok (bytewise_reversed 6 field) := by
  have hl := bytewise_reversed_lt 3 (field / 2 ^ 24)
  have hr := bytewise_reversed_lt 3 (field % 2 ^ 24)
  have hand : field &&& 0xffffff = field % 2 ^ 24 := by
    have h := Nat.and_pow_two_sub_one_eq_mod field 24
    norm_num at h ⊢
    exact h
  have hshl : (bytewise_reversed 3 (field / 2 ^ 24) <<< 24) % 2 ^ 64
      = 2 ^ 24 * bytewise_reversed 3 (field / 2 ^ 24) := by
    rw [Nat.shiftLeft_eq, Nat.mul_comm]
    apply Nat.mod_eq_of_lt
    norm_num at hl ⊢
    omega
  have hor : 2 ^ 24 * bytewise_reversed 3 (field / 2 ^ 24) ||| bytewise_reversed 3 (field % 2 ^ 24)
      = bytewise_reversed 6 field := by
    rw [← Nat.mul_add_lt_is_or (lt_of_lt_of_eq hr (by norm_num)),
      bytewise_reversed_add 3 3 field]
    have h3 : bytewise_reversed 3 (field % 2 ^ 24) = bytewise_reversed 3 field := by
      have := bytewise_reversed_mod 3 field
      norm_num at this ⊢
      exact this
    rw [h3]
    norm_num
    ring
  unfold switch_bit_order_ht
  rw [switch_bit_order_eq _ 3 (le_refl 3), hand, Nat.shiftRight_eq_div_pow]
  simp only [bind, Except.bind]
  rw [switch_bit_order_eq _ 3 (le_refl 3)]
  simp only [hshl, hor]

theorem xor_small_mod (x c : Nat) (hc : c < 256) : (x ^^^ c) % 256 = (x % 256) ^^^ c := by
  apply Nat.eq_of_testBit_eq
  intro i
  have h8 : (256 : Nat) = 2 ^ 8 := by norm_num
  rw [h8, Nat.testBit_mod_two_pow, Nat.testBit_xor, Nat.testBit_xor, Nat.testBit_mod_two_pow]
  by_cases hi : i < 8
  · simp [hi]
  · have hci : c.testBit i = false := by
      apply Nat.testBit_lt_two_pow
      calc c < 2 ^ 8 := by omega
        _ ≤ 2 ^ i := Nat.pow_le_pow_right (by norm_num) (by omega)
    simp [hi, hci]

theorem xor_small_div (x c : Nat) (hc : c < 256) : (x ^^^ c) / 256 = x / 256 := by
  apply Nat.eq_of_testBit_eq
  intro i
  have h8 : (256 : Nat) = 2 ^ 8 := by norm_num
  have hci : c.testBit (8 + i) = false := by
    apply Nat.testBit_lt_two_pow
    calc c < 2 ^ 8 := by omega
      _ ≤ 2 ^ (8 + i) := Nat.pow_le_pow_right (by norm_num) (by omega)
  rw [h8, ← Nat.shiftRight_eq_div_pow, ← Nat.shiftRight_eq_div_pow, Nat.testBit_shiftRight,
    Nat.testBit_shiftRight, Nat.testBit_xor, hci]
  simp

set_option maxRecDepth 100000 in
theorem reverse_byte_xor_parity_bit :
    ∀ b < 256, reverse_byte (b ^^^ 0x40) = reverse_byte b ^^^ 0x02 := by
  decide

/-- Flipping bit 6 before the byte-wise reversal flips bit 1 after it. -/
theorem bytewise_reversed_xor_parity_bit (n x : Nat) :
    bytewise_reversed (n + 1) (x ^^^ 0x40) = bytewise_reversed (n + 1) x ^^^ 0x02 := by
  have hr := reverse_byte_lt (x % 256)
  have hlt : x % 256 < 256 := Nat.mod_lt _ (by norm_num)
  have hx : (reverse_byte (x % 256) ^^^ 0x02) < 256 := by
    have := Nat.xor_lt_two_pow (n := 8) (lt_of_lt_of_eq hr (by norm_num))
      (by norm_num : (0x02 : Nat) < 2 ^ 8)
    norm_num at this ⊢
    exact this
  rw [bytewise_reversed, bytewise_reversed, xor_small_mod _ _ (by norm_num),
    xor_small_div _ _ (by norm_num), reverse_byte_xor_parity_bit _ hlt]
  generalize bytewise_reversed n (x / 256) = t at *
  generalize reverse_byte (x % 256) = r at *
  have hm := xor_small_mod (r + 256 * t) 0x02 (by norm_num)
  have hd := xor_small_div (r + 256 * t) 0x02 (by norm_num)
  have e1 : (r + 256 * t) % 256 = r := by omega
  have e2 : (r + 256 * t) / 256 = t := by omega
  rw [e1] at hm
  rw [e2] at hd
  have := Nat.mod_add_div ((r + 256 * t) ^^^ 0x02) 256
  rw [hm, hd] at this
  exact this

/-! ## The claims on the hex strings, the HT transform and the parity bit -/

/-- C16: for a zero size `to_hex_string` returns the string literal `"0x00"`,
whatever the field and the reverse flag: no heap block is made and the
bit-order transform has no part in the result. -/
theorem to_hex_string_zero_size (f : Nat) (reverse : Bool) :
    to_hex_string f reverse 0 = .ok (.literal "0x00") :=
  rfl

/-- C17: for a 48-bit field `switch_bit_order_ht` returns the two 3-byte
transforms put together, `(left << 24) | right`; in the result every one of the
six bytes is the bit reversal of the same byte of the field, the result is
again below `2 ^ 48`, and a second call gives the field back. -/
theorem switch_bit_order_ht_halves (f : Nat) (hf : f < 2 ^ 48) :
    ∃ w left right, switch_bit_order_ht f = .ok w ∧
      switch_bit_order (f >>> 24) 3 = .ok left ∧
      switch_bit_order (f &&& 0xffffff) 3 = .ok right ∧
      w = (left <<< 24) ||| right ∧
      (∀ k, k < 6 → byte_at w k = reverse_byte (byte_at f k)) ∧
      w < 2 ^ 48 ∧
      switch_bit_order_ht w = .ok f := by
  have hw := switch_bit_order_ht_eq f
  have hlt := bytewise_reversed_lt 6 f
  have hl := bytewise_reversed_lt 3 (f >>> 24)
  refine ⟨_, _, _, hw, switch_bit_order_eq _ 3 (le_refl 3),
    switch_bit_order_eq _ 3 (le_refl 3), ?_, ?_, ?_, ?_⟩
  · have h := hw
    unfold switch_bit_order_ht at h
    rw [switch_bit_order_eq _ 3 (le_refl 3), switch_bit_order_eq _ 3 (le_refl 3)] at h
    simp only [bind, Except.bind] at h
    injection h with h
    rw [← h, Nat.mod_eq_of_lt]
    rw [Nat.shiftLeft_eq]
    norm_num at hl ⊢
    omega
  · intro k hk
    rw [byte_at_bytewise_reversed, if_pos hk]
  · norm_num at hlt ⊢
    exact hlt
  · rw [switch_bit_order_ht_eq, bytewise_reversed_twice, Nat.mod_eq_of_lt]
    norm_num at hf ⊢
    exact hf

/-- C17, at the field `0x010203040506`. -/
theorem switch_bit_order_ht_halves_witness :
    ∃ w left right, switch_bit_order_ht 0x010203040506 = .ok w ∧
      switch_bit_order (0x010203040506 >>> 24) 3 = .ok left ∧
      switch_bit_order (0x010203040506 &&& 0xffffff) 3 = .ok right ∧
      w = (left <<< 24) ||| right ∧
      (∀ k, k < 6 → byte_at w k = reverse_byte (byte_at 0x010203040506 k)) ∧
      w < 2 ^ 48 ∧
      switch_bit_order_ht w = .ok 0x010203040506 :=
  switch_bit_order_ht_halves 0x010203040506 (by norm_num)

/-- C18: the block of `to_hex_string` is not large enough for every store.  For
`field = 0x01020304` and `size = 4` the block has `4 * 2 + 3 = 11` cells; the
prefix, the digits `1020304` and their terminator land in cells 0 to 9, and the
store of line 140 goes to index `4 * 2 + 3`, which is the length of the block
and so outside it: the call hands back no string. -/
theorem to_hex_string_last_store_outside_block :
    ∃ ret, to_hex_string_fill 0x01020304 4 = .ok ret ∧
      ret = [some '0'.toNat, some 'x'.toNat, some '1'.toNat, some '0'.toNat, some '2'.toNat,
          some '0'.toNat, some '3'.toNat, some '0'.toNat, some '4'.toNat, some 0, none] ∧
      ret.length = 4 * 2 + 3 ∧
      store_char ret (4 * 2 + 3) 0 = .error .undefined_behaviour ∧
      to_hex_string 0x01020304 false 4 = .error .undefined_behaviour :=
  ⟨_, rfl, rfl, rfl, rfl, rfl⟩

/-- C19: in legacy mode `correct_parity` changes at most the parity bit.  In
natural bit order the result is the field or the field with bit 6 flipped; in
reverse bit order, for a field of three bytes, it is the field or the field
with bit 1 flipped. -/
theorem correct_parity_touches_parity_bit_only (f : Nat) :
    (∃ g, correct_parity f false true = .ok g ∧ (g = f ∨ g = f ^^^ 0x40)) ∧
    (f < 2 ^ 24 →
      ∃ g, correct_parity f true true = .ok g ∧ (g = f ∨ g = f ^^^ 0x02)) := by
  constructor
  · refine ⟨_, correct_parity_plain f, ?_⟩
    unfold parity_fixed
    split
    · exact Or.inl rfl
    · exact Or.inr rfl
  · intro hf
    have hback : bytewise_reversed 3 (bytewise_reversed 3 f) = f := by
      rw [bytewise_reversed_twice, Nat.mod_eq_of_lt]
      norm_num at hf ⊢
      exact hf
    refine ⟨_, correct_parity_reversed f, ?_⟩
    unfold parity_fixed
    split
    · exact Or.inl hback
    · right
      rw [bytewise_reversed_xor_parity_bit 2, hback]

/-- C19, at the field `0x02`, which in wire order is the parity bit alone. -/
theorem correct_parity_touches_parity_bit_only_witness :
    ∃ g, correct_parity 0x02 true true = .ok g ∧ (g = 0x02 ∨ g = 0x02 ^^^ 0x02) :=
  (correct_parity_touches_parity_bit_only 0x02).2 (by norm_num)

/-! ## The codec and splicer claims at concrete inputs -/

/-- C11, at the bytes `01 02 03`, whose big-endian value is `0x010203`. -/
theorem to_unsigned_long_int_big_endian_witness :
    (to_unsigned_long_int [0x01, 0x02, 0x03] false 3
        = .ok (big_endian_sum [0x01, 0x02, 0x03] 0 3) ∧
      to_unsigned_long_int [0x01, 0x02, 0x03] true 3
        = switch_bit_order (big_endian_sum [0x01, 0x02, 0x03] 0 3) 3) ∧
    big_endian_sum [0x01, 0x02, 0x03] 0 3 = 0x010203 :=
  ⟨to_unsigned_long_int_big_endian [0x01, 0x02, 0x03] 3 (by norm_num) rfl (by decide), rfl⟩

/-- C12, at the field `0x01020304` written as four bytes into a five-byte
array. -/
theorem to_u8_array_big_endian_witness :
    ∃ r, to_u8_array 0x01020304 [9, 9, 9, 9, 7] false 4 = .ok r ∧
      r.length = [9, 9, 9, 9, 7].length ∧
      (∀ i, i < 4 → r[i]? = some ((0x01020304 >>> (8 * (4 - 1 - i))) &&& 0xff)) ∧
      (∀ i, 4 ≤ i → r[i]? = [9, 9, 9, 9, 7][i]?) :=
  to_u8_array_big_endian 0x01020304 4 [9, 9, 9, 9, 7] (by decide)

/-- C13, at the legacy field `01 02 03` and a buffer of 18 zero bytes: the
buffer becomes `01 02 03 AA AA AA AA AA` from offset 8 on. -/
theorem inject_signal_field_window_witness :
    (∃ r, inject_signal_field (List.replicate 18 0) [0x01, 0x02, 0x03] true = .ok r ∧
      r.length = (List.replicate 18 0).length ∧
      (∀ i, i < 3 → r[8 + i]? = [0x01, 0x02, 0x03][i]?) ∧
      (∀ i, 3 ≤ i → i < 8 → r[8 + i]? = some 0xaa) ∧
      (∀ j, j < 8 ∨ 16 ≤ j → r[j]? = (List.replicate 18 0)[j]?)) ∧
    inject_signal_field (List.replicate 18 0) [0x01, 0x02, 0x03] true
      = .ok [0, 0, 0, 0, 0, 0, 0, 0, 0x01, 0x02, 0x03, 0xaa, 0xaa, 0xaa, 0xaa, 0xaa, 0, 0] :=
  ⟨inject_signal_field_window (List.replicate 18 0) [0x01, 0x02, 0x03] true (by decide)
    (by decide), rfl⟩

/-- C15, copying two bytes to offset 1 of a five-byte destination, and with a
negative size. -/
theorem transfer_array_copies_witness :
    (∃ r, transfer_array [0, 0, 0, 0, 0] [7, 8, 9] 2 1 = .ok r ∧
      r.length = [0, 0, 0, 0, 0].length ∧
      (∀ i : Nat, (i : Int) < 2 → r[(1 : Int).toNat + i]? = [7, 8, 9][i]?) ∧
      (∀ j : Nat, ((j : Int) < 1 ∨ (1 : Int) + 2 ≤ j) → r[j]? = [0, 0, 0, 0, 0][j]?)) ∧
    transfer_array [0, 0, 0, 0, 0] [7, 8, 9] (-1) 1 = .ok [0, 0, 0, 0, 0] ∧
    transfer_array [0, 0, 0, 0, 0] [7, 8, 9] 2 1 = .ok [0, 7, 8, 0, 0] :=
  ⟨(transfer_array_copies [0, 0, 0, 0, 0] [7, 8, 9] 2 1).1 (by decide) (by decide)
      (by decide) (by decide),
    (transfer_array_copies [0, 0, 0, 0, 0] [7, 8, 9] (-1) 1).2 (by decide), rfl⟩

/-- C20, at a five-byte value written as three bytes: the two high bytes are
dropped. -/
theorem to_u8_array_read_back_witness :
    (to_u8_array 0x0102030405 [0, 0, 0] false 3 >>= fun a => to_unsigned_long_int a false 3)
      = .ok (0x0102030405 % 2 ^ (8 * 3)) ∧
    0x0102030405 % 2 ^ (8 * 3) = 0x030405 :=
  ⟨(to_u8_array_read_back 0x0102030405 3 [0, 0, 0] (by norm_num) (by decide)).1, by norm_num⟩

end SignalField
